import Mathlib

/-!
Verification of the netbase core connection state machine.

The Connection member functions are translated from src/src/core/connection.cpp.
Components whose sources are not in the repository snapshot (ack_type, the send
and receive ring buffers, Packet framing, SmartSocket demultiplexing) are
modelled from the specification, as marked on each definition.

Machine integers are modelled as Nat with explicit reductions modulo 2^16,
2^32 and 2^64 where the C++ types (uint16_t, uint32_t, size_t) wrap.
Timestamps are milliseconds as Int.  Asynchronous posts (io_service::post,
async_send_to completion handlers) are modelled as explicit effect lists.
-/

namespace Netbase

/-- Circular 16-bit difference (a - b) mod 2^16, on arbitrary naturals. -/
def sub16 (a b : Nat) : Nat :=
  (a % 65536 + 65536 - b % 65536) % 65536

/-- Modelled from the spec: circular-greater comparison on 16-bit seqnums,
(a - b) mod 2^16 lies in (0, 2^15); the helper used by connection.cpp whose
definition is not under src/. -/
def moreRecentSeqNum (a b : Nat) : Bool :=
  decide (0 < sub16 a b ∧ sub16 a b < 32768)

/-- Ring-buffer slot of a seqnum: both buffers have capacity 256. -/
def slotOf (s : Nat) : Nat := s % 256

/-- Modelled from the spec: AckField state (latest, bits); ack_type's source is
not under src/. -/
structure AckField where
  latest : Nat
  bits : Nat
deriving DecidableEq

/-- Modelled from the spec: AckField.updateForSeqNum.  If s is circular-greater
than latest, shift bits left by d = (s - latest) mod 2^16 (as a u32), set bit
d - 1 when d is at most 32, and replace latest by s.  Otherwise, with
d = (latest - s) mod 2^16 at most 32, set bit d - 1; setting a bit whose index
lies outside the 32-bit field (the spec's index (latest - s) - 1 is -1 when
s equals latest) has no effect on the field. -/
def AckField.updateForSeqNum (f : AckField) (s : Nat) : AckField :=
  if moreRecentSeqNum s f.latest = true then
    let d := sub16 s f.latest
    let shifted := (f.bits <<< d) % 4294967296
    ⟨s % 65536, if d ≤ 32 then shifted ||| 2 ^ (d - 1) else shifted⟩
  else
    let d := sub16 f.latest s
    if d ≤ 32 ∧ 1 ≤ d then ⟨f.latest, f.bits ||| 2 ^ (d - 1)⟩ else f

/-- Modelled from the spec: forEachAckedSeqNum as the list of covered seqnums,
latest first, then latest - (i+1) for each set bit i. -/
def AckField.ackedSeqNums (f : AckField) : List Nat :=
  f.latest :: (List.range 32).filterMap
    (fun i => if f.bits.testBit i then some (sub16 f.latest (i + 1)) else none)

/-- Wire header, fields as in the spec's little-endian layout. -/
structure PacketHeader where
  protocol : Nat
  seqNum : Nat
  ack : Nat
  ackBits : Nat
deriving DecidableEq

/-- A packet: header plus payload bytes. -/
structure Packet where
  header : PacketHeader
  payload : List Nat
deriving DecidableEq

/-- PacketExt of connection.h: the stored packet, its resend budget and the
send timestamp (milliseconds). -/
structure SentEntry where
  packet : Packet
  resendLimit : Nat
  timestamp : Int
deriving DecidableEq

/-- The seqnum of a stored packet, read from its stamped header. -/
def SentEntry.seqNum (e : SentEntry) : Nat := e.packet.header.seqNum

/-- Modelled from the spec: the fixed-capacity (256) ring of outstanding sent
packets keyed by seqnum mod 256, represented by its list of occupants plus the
next seqnum to assign.  The invariant carried in the structure is exactly what
the C++ array representation gives for free: one occupant per slot, stamped
seqnums below 2^16, and a 16-bit next-seqnum counter. -/
structure SentBuffer where
  entries : List SentEntry
  nextSeqNum : Nat
  inv : entries.Pairwise (fun a b => slotOf a.seqNum ≠ slotOf b.seqNum) ∧
        (∀ e ∈ entries, SentEntry.seqNum e < 65536) ∧ nextSeqNum < 65536

/-- Modelled from the spec: store assigns seqNum = nextSeqNum++, stamps the
packet header with that seqnum and the local ack snapshot, writes slot
seqNum mod 256 and returns the prior occupant; also returns the stamped
packet (the C++ store mutates the shared packet in place). -/
def SentBuffer.store (b : SentBuffer) (p : Packet) (resendLimit : Nat)
    (ackLatest ackBits : Nat) (now : Int) :
    Option SentEntry × SentBuffer × Packet :=
  let s := b.nextSeqNum % 65536
  let stamped : Packet := ⟨⟨p.header.protocol, s, ackLatest, ackBits⟩, p.payload⟩
  let evicted := b.entries.find? (fun e => slotOf e.seqNum == slotOf s)
  ⟨evicted,
   ⟨⟨stamped, resendLimit, now⟩ :: b.entries.filter (fun e => !(slotOf e.seqNum == slotOf s)),
    (b.nextSeqNum + 1) % 65536,
    by
      refine ⟨?_, ?_, Nat.mod_lt _ (by omega)⟩
      · refine List.pairwise_cons.mpr ⟨?_, b.inv.1.filter _⟩
        intro e he
        have := (List.mem_filter.mp he).2
        simp only [SentEntry.seqNum, Bool.not_eq_true', beq_eq_false_iff_ne, ne_eq] at this ⊢
        exact fun hx => this hx.symm
      · intro e he
        rcases List.mem_cons.mp he with h | h
        · subst h
          exact Nat.mod_lt _ (by omega)
        · exact b.inv.2.1 e (List.mem_filter.mp h).1⟩,
   stamped⟩

/-- Modelled from the spec: does slot s mod 256 hold a packet with seqnum s. -/
def SentBuffer.contains (b : SentBuffer) (s : Nat) : Bool :=
  match b.entries.find? (fun e => slotOf e.seqNum == slotOf s) with
  | some e => e.seqNum == s
  | none => false

/-- Modelled from the spec: clear slot s mod 256 and return its occupant. -/
def SentBuffer.release (b : SentBuffer) (s : Nat) : Option SentEntry × SentBuffer :=
  ⟨b.entries.find? (fun e => slotOf e.seqNum == slotOf s),
   ⟨b.entries.filter (fun e => !(slotOf e.seqNum == slotOf s)), b.nextSeqNum,
    ⟨b.inv.1.filter _, fun e he => b.inv.2.1 e (List.mem_filter.mp he).1, b.inv.2.2⟩⟩⟩

/-- Selection of the oldest element by circular seqnum order: starting from e,
replace the candidate whenever it is circular-greater than the next element. -/
def selOldest {α : Type} (key : α → Nat) (e : α) (l : List α) : α :=
  l.foldl (fun acc x => if moreRecentSeqNum (key acc) (key x) = true then x else acc) e

/-- Modelled from the spec: the occupied seqnum at minimal circular-greater
position (0 when empty; only called on non-empty buffers). -/
def SentBuffer.oldestSeqNum (b : SentBuffer) : Nat :=
  match b.entries with
  | [] => 0
  | e :: rest => (selOldest SentEntry.seqNum e rest).seqNum

/-- Modelled from the spec: the smallest timestamp among occupants (0 when
empty; only called on non-empty buffers). -/
def SentBuffer.oldestTime (b : SentBuffer) : Int :=
  match b.entries with
  | [] => 0
  | e :: rest => rest.foldl (fun t x => min t x.timestamp) e.timestamp

/-- Modelled from the spec: is the sent ring empty. -/
def SentBuffer.empty (b : SentBuffer) : Bool := b.entries.isEmpty

/-- Modelled from the spec: the fixed-capacity (256) ring of received packets
keyed by incoming seqnum mod 256, with the same representation invariant the
C++ array gives for free. -/
structure RecvBuffer where
  entries : List (Nat × Packet)
  inv : entries.Pairwise (fun a b => slotOf a.1 ≠ slotOf b.1) ∧
        (∀ x ∈ entries, x.1 < 65536)

/-- Modelled from the spec: write slot s mod 256, returning the prior
occupant (a prior occupant with the same seqnum is a duplicate). -/
def RecvBuffer.insert (b : RecvBuffer) (s : Nat) (p : Packet) :
    Option Packet × RecvBuffer :=
  ⟨(b.entries.find? (fun x => slotOf x.1 == slotOf s)).map Prod.snd,
   ⟨(s % 65536, p) :: b.entries.filter (fun x => !(slotOf x.1 == slotOf s)),
    by
      refine ⟨?_, ?_⟩
      · refine List.pairwise_cons.mpr ⟨?_, b.inv.1.filter _⟩
        intro x hx
        have := (List.mem_filter.mp hx).2
        simp only [Bool.not_eq_true', beq_eq_false_iff_ne, ne_eq] at this ⊢
        have hmod : slotOf (s % 65536) = slotOf s := by
          simp only [slotOf]
          omega
        rw [hmod]
        exact fun hx2 => this hx2.symm
      · intro x hx
        rcases List.mem_cons.mp hx with h | h
        · subst h
          exact Nat.mod_lt _ (by omega)
        · exact b.inv.2 x (List.mem_filter.mp h).1⟩⟩

/-- Modelled from the spec: pop the occupant with minimal circular-greater
seqnum (the oldest). -/
def RecvBuffer.removeLast (b : RecvBuffer) : Option (Nat × Packet) × RecvBuffer :=
  match b.entries with
  | [] => (none, b)
  | e :: rest =>
    let m := selOldest Prod.fst e rest
    (some m,
     ⟨b.entries.filter (fun x => !(slotOf x.1 == slotOf m.1)),
      ⟨b.inv.1.filter _, fun x hx => b.inv.2 x (List.mem_filter.mp hx).1⟩⟩)

/-- Modelled from the spec: is the receive ring empty. -/
def RecvBuffer.empty (b : RecvBuffer) : Bool := b.entries.isEmpty

/-- The empty receive ring. -/
def RecvBuffer.mkEmpty : RecvBuffer := ⟨[], List.Pairwise.nil, by simp⟩

/-- The empty sent ring with a given next seqnum below 2^16. -/
def SentBuffer.mkEmpty : SentBuffer := ⟨[], 0, List.Pairwise.nil, by simp, by omega⟩

/-- Effects a connection operation emits instead of performing them inline:
a doSend task posted to the io_service (asyncSend), a datagram submitted to
the UDP substrate (async_send_to), and an observer error notification. -/
inductive Eff where
  | postSend (p : Packet) (resendLimit : Nat)
  | sendTo (p : Packet)
  | onError (code : Nat)
deriving DecidableEq

/-- Connection state, from connection.cpp's constructor and members: the dead
flag, the local AckField m_ack, the sent and receive rings, the size_t RTT
average, the three statistics counters and the last receive time. -/
structure Conn where
  isDead : Bool
  ack : AckField
  sentPackets : SentBuffer
  recvPackets : RecvBuffer
  averageRTT : Nat
  recvCount : Nat
  sentCount : Nat
  ackdCount : Nat
  recvTime : Int

/-- Connection constructor (connection.cpp lines 15-24): live, averageRTT 50,
all counters zero, empty buffers. -/
def initConn : Conn :=
  { isDead := false, ack := ⟨0, 0⟩, sentPackets := SentBuffer.mkEmpty,
    recvPackets := RecvBuffer.mkEmpty, averageRTT := 50, recvCount := 0,
    sentCount := 0, ackdCount := 0, recvTime := 0 }

/-- Connection::markDead. -/
def markDead (c : Conn) (value : Bool) : Conn := { c with isDead := value }

/-- Connection::asyncSend (connection.cpp lines 34-38): posts a doSend task to
the io_service and returns; it performs no inline mutation and consults no
state (in particular not the dead flag). -/
def asyncSend (p : Packet) (resendLimit : Nat) : List Eff :=
  [Eff.postSend p resendLimit]

/-- Connection::doSend (connection.cpp lines 41-59): store the packet into the
sent ring (stamping its header), re-post any displaced occupant with positive
budget at budget minus one, submit the datagram, and count the send. -/
def doSend (c : Conn) (p : Packet) (resendLimit : Nat) (now : Int) : Conn × List Eff :=
  let r := c.sentPackets.store p resendLimit c.ack.latest c.ack.bits now
  let resendEffs : List Eff :=
    match r.1 with
    | some old => if 0 < old.resendLimit then asyncSend old.packet (old.resendLimit - 1) else []
    | none => []
  ({ c with sentPackets := r.2.1, sentCount := c.sentCount + 1 },
   resendEffs ++ [Eff.sendTo r.2.2])

/-- Connection::removeUndeliveredPacket (connection.cpp lines 74-82): if the
ring holds seqNum, release it and, when its budget is positive, immediately
doSend it again with the budget decremented. -/
def removeUndeliveredPacket (c : Conn) (s : Nat) (now : Int) : Conn × List Eff :=
  if c.sentPackets.contains s = true then
    let r := c.sentPackets.release s
    let c2 := { c with sentPackets := r.2 }
    match r.1 with
    | some e => if 0 < e.resendLimit then doSend c2 e.packet (e.resendLimit - 1) now else (c2, [])
    | none => (c2, [])
  else (c, [])

/-- Connection::handleSend (connection.cpp lines 63-72): on a non-zero error
code, notify observers and remove the undelivered packet; otherwise no
state change. -/
def handleSend (c : Conn) (p : Packet) (error : Nat) (now : Int) : Conn × List Eff :=
  if error ≠ 0 then
    let r := removeUndeliveredPacket c p.header.seqNum now
    (r.1, Eff.onError error :: r.2)
  else (c, [])

/-- The EWMA step of Connection::confirmPacketDelivery, in wrapping size_t
arithmetic: (9 * avg + observed) / 10. -/
def rttUpdate (avg observed : Nat) : Nat :=
  ((9 * avg + observed) % 18446744073709551616) / 10

/-- Connection::confirmPacketDelivery (connection.cpp lines 84-97): if the
ring holds seqNum, release it, fold the observed RTT (now minus the entry's
timestamp, cast to size_t) into the average, and count the ack. -/
def confirmPacketDelivery (c : Conn) (s : Nat) (now : Int) : Conn :=
  if c.sentPackets.contains s = true then
    let r := c.sentPackets.release s
    match r.1 with
    | some e =>
      let observed := ((now - e.timestamp) % (18446744073709551616 : Int)).toNat
      { c with sentPackets := r.2, averageRTT := rttUpdate c.averageRTT observed,
               ackdCount := c.ackdCount + 1 }
    | none => { c with sentPackets := r.2 }
  else c

/-- Weight of the sent ring used as the loss-detection loop's fuel: every
occupant contributes its resend budget plus one. -/
def sentMeasure (b : SentBuffer) : Nat :=
  (b.entries.map (fun e => e.resendLimit + 1)).sum

/-- The while-loop of Connection::processPeerAcks (connection.cpp lines
140-153), written with explicit fuel so that it computes by reduction: while
the ring is non-empty and its oldest occupant is circularly below minSeqNum or
timestamped before minTime, remove it as undelivered.  processPeerAcks passes
fuel sentMeasure + 1, which the loop never exhausts (each iteration strictly
decreases sentMeasure). -/
def lossLoopFuel : Nat → Conn → Nat → Int → Int → Conn × List Eff
  | 0, c, _, _, _ => (c, [])
  | fuel + 1, c, minSeqNum, minTime, now =>
    if c.sentPackets.empty = true then (c, [])
    else if moreRecentSeqNum minSeqNum c.sentPackets.oldestSeqNum = true ∨
            minTime > c.sentPackets.oldestTime then
      let r1 := removeUndeliveredPacket c c.sentPackets.oldestSeqNum now
      let r2 := lossLoopFuel fuel r1.1 minSeqNum minTime now
      (r2.1, r1.2 ++ r2.2)
    else (c, [])

/-- Connection::processPeerAcks (connection.cpp lines 133-154): confirm every
seqnum the peer ack covers, then evict undelivered packets older than
peerAck - 256 circularly or more than two seconds old. -/
def processPeerAcks (c : Conn) (peerAck : AckField) (now : Int) : Conn × List Eff :=
  let c1 := peerAck.ackedSeqNums.foldl (fun st s => confirmPacketDelivery st s now) c
  lossLoopFuel (sentMeasure c1.sentPackets + 1) c1 (sub16 peerAck.latest 256) (now - 2000) now

/-- Connection::handleReceive (connection.cpp lines 102-126): stamp the
receive time, count the packet, fold its seqnum into the local ack, process
the peer's ack field from the header, and insert the packet into the receive
ring (a displaced occupant is only logged). -/
def handleReceive (c : Conn) (p : Packet) (now : Int) : Conn × List Eff :=
  let c0 := { c with recvTime := now, recvCount := c.recvCount + 1,
                     ack := c.ack.updateForSeqNum p.header.seqNum }
  let r := processPeerAcks c0 ⟨p.header.ack, p.header.ackBits⟩ now
  let r2 := r.1.recvPackets.insert p.header.seqNum p
  ({ r.1 with recvPackets := r2.2 }, r.2)

/-- The drain loop of Connection::dispatchReceivedPackets (connection.cpp
lines 158-166), with fuel equal to the number of occupants (each removeLast on
a non-empty ring removes exactly one): repeatedly pop the oldest occupant and
deliver it. -/
def dispatchLoopFuel : Nat → RecvBuffer → List (Nat × Packet)
  | 0, _ => []
  | fuel + 1, b =>
    match b.removeLast with
    | (none, _) => []
    | (some m, b2) => m :: dispatchLoopFuel fuel b2

/-- Connection::dispatchReceivedPackets: drain the receive ring oldest-first,
returning the delivered (seqnum, packet) pairs in delivery order. -/
def dispatchReceivedPackets (c : Conn) : List (Nat × Packet) × Conn :=
  (dispatchLoopFuel c.recvPackets.entries.length c.recvPackets,
   { c with recvPackets := RecvBuffer.mkEmpty })

/-- The io_service executor running one posted task: a posted doSend runs
doSend; other effects do not take place on the connection. -/
def runPost (c : Conn) (e : Eff) (now : Int) : Conn × List Eff :=
  match e with
  | Eff.postSend p l => doSend c p l now
  | _ => (c, [])

/-- Budgets of successive resends of one packet lineage: a resend happens
only with a positive budget and carries budget one less. -/
inductive ResendChain : Nat → List Nat → Prop where
  | nil : ∀ k, ResendChain k []
  | cons : ∀ k rest, 0 < k → ResendChain (k - 1) rest → ResendChain k ((k - 1) :: rest)

/-- Little-endian value of a byte list. -/
def leVal (l : List Nat) : Nat := l.foldr (fun b acc => b + 256 * acc) 0

/-- Modelled from the spec: Packet decode (spec 4.A); packet.h is not under
src/.  Fails when the datagram is shorter than the 12-byte header or longer
than 512 bytes, otherwise reads the little-endian header and copies the
payload. -/
def decodePacket (bytes : List Nat) : Option (PacketHeader × List Nat) :=
  if bytes.length < 12 ∨ bytes.length > 512 then none
  else some (⟨leVal (bytes.take 4), leVal ((bytes.drop 4).take 2),
              leVal ((bytes.drop 6).take 2), leVal ((bytes.drop 8).take 4)⟩,
             bytes.drop 12)

/-- Observer notifications at the socket level. -/
inductive SocketEvent where
  | badPacketSize (size : Nat)
deriving DecidableEq

/-- Modelled from the spec: one inbound datagram through SmartSocket (spec
4.F, 6); smart_socket source is not under src/.  An invalid size produces
onBadPacketSize and touches no connection; a valid datagram is routed to the
peer's connection (created fresh if absent) via handleReceive. -/
def socketProcessDatagram (reg : List (Nat × Conn)) (ep : Nat) (bytes : List Nat)
    (now : Int) : List (Nat × Conn) × List SocketEvent × List Eff :=
  match decodePacket bytes with
  | none => (reg, [SocketEvent.badPacketSize bytes.length], [])
  | some (h, payload) =>
    let c := match reg.find? (fun x => x.1 == ep) with
      | some x => x.2
      | none => initConn
    let r := handleReceive c ⟨h, payload⟩ now
    ((ep, r.1) :: reg.filter (fun x => !(x.1 == ep)), [], r.2)

/-- Reachable-buffer window invariant: every occupant's seqnum lies circularly
within the 256 seqnums just below nextSeqNum (each entry was stored at some
earlier nextSeqNum and survives only until its slot is reused 256 sends
later). -/
def InWindow (b : SentBuffer) : Prop :=
  ∀ e ∈ b.entries, 1 ≤ sub16 b.nextSeqNum e.seqNum ∧ sub16 b.nextSeqNum e.seqNum ≤ 256

/-- Scenario state for claim C1: five in-flight packets, seqnums 0..4, zero
resend budget, all timestamped at the current time. -/
def entC1 (i : Nat) : SentEntry := ⟨⟨⟨1, i, 0, 0⟩, []⟩, 0, 1000⟩

/-- The C1 sent ring holding seqnums 0..4, most recent first. -/
def sentC1 : SentBuffer := ⟨[entC1 4, entC1 3, entC1 2, entC1 1, entC1 0], 5, by decide⟩

/-- The C1 connection. -/
def connC1 : Conn :=
  { isDead := false, ack := ⟨0, 0⟩, sentPackets := sentC1,
    recvPackets := RecvBuffer.mkEmpty, averageRTT := 50, recvCount := 0,
    sentCount := 5, ackdCount := 0, recvTime := 1000 }

/-- Packets for the C2 duplicate scenario: same seqnum 7, different payloads. -/
def pC2a : Packet := ⟨⟨1, 7, 0, 0⟩, [1]⟩

/-- Second copy of seqnum 7 with a different payload. -/
def pC2b : Packet := ⟨⟨1, 7, 0, 0⟩, [2]⟩

/-- Packets for the C2 ordering scenario: seqnums 0, 20000, 40000 form a
cycle under circular-greater (20000 above 0, 40000 above 20000, 0 above
40000), yet occupy distinct slots 0, 32, 64. -/
def qC2a : Packet := ⟨⟨1, 0, 0, 0⟩, [1]⟩

/-- Seqnum 20000 packet. -/
def qC2b : Packet := ⟨⟨1, 20000, 0, 0⟩, [2]⟩

/-- Seqnum 40000 packet. -/
def qC2c : Packet := ⟨⟨1, 40000, 0, 0⟩, [3]⟩

/-- Connection after receiving seqnums 0, 20000, 40000. -/
def connC2y : Conn :=
  (handleReceive (handleReceive (handleReceive initConn qC2a 0).1 qC2b 0).1 qC2c 0).1

/-- C2 witness state: a receive ring holding seqnums 5 and 300, both within
the half-window below 301. -/
def connC2w : Conn :=
  { initConn with recvPackets := ⟨[(300, qC2b), (5, qC2a)], by decide⟩ }

/-- C3 witness state: one in-flight packet, seqnum 0, resend budget 2. -/
def connC3w : Conn :=
  { initConn with sentPackets := ⟨[⟨⟨⟨1, 0, 0, 0⟩, [9]⟩, 2, 50⟩], 1, by decide⟩ }

/-- A dead connection for claim C4. -/
def connC4 : Conn := { initConn with isDead := true }

/-- The payload sent on the dead connection in claim C4. -/
def pC4 : Packet := ⟨⟨1, 0, 0, 0⟩, [5]⟩

/-- C5 counterexample state: in-flight seqnums 65280 and 65290 (slots 0 and
10), next seqnum 65291, fresh timestamps. -/
def entC5 (i : Nat) : SentEntry := ⟨⟨⟨1, i, 0, 0⟩, []⟩, 0, 1000000⟩

/-- The C5 counterexample sent ring. -/
def sentC5x : SentBuffer := ⟨[entC5 65280, entC5 65290], 65291, by decide⟩

/-- The C5 counterexample connection. -/
def connC5x : Conn :=
  { isDead := false, ack := ⟨0, 0⟩, sentPackets := sentC5x,
    recvPackets := RecvBuffer.mkEmpty, averageRTT := 50, recvCount := 0,
    sentCount := 2, ackdCount := 0, recvTime := 1000000 }

/-- C5 witness state: in-flight seqnums 3 and 4 with budget 1, one of them
two and a half seconds old. -/
def connC5w : Conn :=
  { isDead := false, ack := ⟨0, 0⟩,
    sentPackets := ⟨[⟨⟨⟨1, 4, 0, 0⟩, []⟩, 1, 10000⟩, ⟨⟨⟨1, 3, 0, 0⟩, []⟩, 1, 7500⟩], 5, by decide⟩,
    recvPackets := RecvBuffer.mkEmpty, averageRTT := 50, recvCount := 0,
    sentCount := 2, ackdCount := 0, recvTime := 10000 }

/-- The packet used in the C10 witness. -/
def pC10 : Packet := ⟨⟨1, 7, 0, 0⟩, []⟩

/-! ### Helper lemmas -/

theorem moreRecent_iff (a b : Nat) :
    moreRecentSeqNum a b = true ↔ 0 < sub16 a b ∧ sub16 a b < 32768 := by
  simp [moreRecentSeqNum]

theorem selOldest_mem {α : Type} (key : α → Nat) (e : α) (l : List α) :
    selOldest key e l ∈ e :: l := by
  induction l generalizing e with
  | nil => simp [selOldest]
  | cons x xs ih =>
    simp only [selOldest, List.foldl_cons]
    by_cases h : moreRecentSeqNum (key e) (key x) = true
    · rw [if_pos h]
      have h2 := ih x
      simp only [selOldest] at h2
      simp only [List.mem_cons] at h2 ⊢
      tauto
    · rw [if_neg h]
      have h2 := ih e
      simp only [selOldest] at h2
      simp only [List.mem_cons] at h2 ⊢
      tauto

theorem foldl_min_le_start (l : List SentEntry) (t : Int) :
    l.foldl (fun a y => min a y.timestamp) t ≤ t := by
  induction l generalizing t with
  | nil => simp
  | cons y ys ih => exact le_trans (ih (min t y.timestamp)) (min_le_left _ _)

theorem foldl_min_le_mem (l : List SentEntry) (t : Int) (x : SentEntry) (hx : x ∈ l) :
    l.foldl (fun a y => min a y.timestamp) t ≤ x.timestamp := by
  induction l generalizing t with
  | nil => cases hx
  | cons y ys ih =>
    rcases List.mem_cons.mp hx with h | h
    · subst h
      exact le_trans (foldl_min_le_start ys _) (min_le_right _ _)
    · exact ih _ h

theorem oldestTime_le (b : SentBuffer) (x : SentEntry) (hx : x ∈ b.entries) :
    b.oldestTime ≤ x.timestamp := by
  unfold SentBuffer.oldestTime
  cases hb : b.entries with
  | nil => rw [hb] at hx; cases hx
  | cons e rest =>
    rw [hb] at hx
    rcases List.mem_cons.mp hx with h | h
    · subst h
      exact foldl_min_le_start rest _
    · exact foldl_min_le_mem rest _ x h

theorem find?_key_eq {α : Type} (key : α → Nat) {l : List α}
    (hp : l.Pairwise (fun a b => slotOf (key a) ≠ slotOf (key b)))
    {e : α} (he : e ∈ l) :
    l.find? (fun x => slotOf (key x) == slotOf (key e)) = some e := by
  induction l with
  | nil => cases he
  | cons y ys ih =>
    rcases List.mem_cons.mp he with h | h
    · subst h
      simp [List.find?_cons]
    · have hy : slotOf (key y) ≠ slotOf (key e) := (List.pairwise_cons.mp hp).1 e h
      have hpred : (slotOf (key y) == slotOf (key e)) = false := by
        simpa using hy
      simp only [List.find?_cons, hpred]
      exact ih (List.pairwise_cons.mp hp).2 h

theorem filter_slot_perm {α : Type} (key : α → Nat) {l : List α}
    (hp : l.Pairwise (fun a b => slotOf (key a) ≠ slotOf (key b)))
    {e : α} (he : e ∈ l) :
    l.Perm (e :: l.filter (fun x => !(slotOf (key x) == slotOf (key e)))) := by
  induction l with
  | nil => cases he
  | cons y ys ih =>
    rcases List.mem_cons.mp he with h | h
    · subst h
      have hkeep : ∀ x ∈ ys, (!(slotOf (key x) == slotOf (key e))) = true := by
        intro x hx
        have := (List.pairwise_cons.mp hp).1 x hx
        simpa using fun h2 => this h2.symm
      have : ys.filter (fun x => !(slotOf (key x) == slotOf (key e))) = ys :=
        List.filter_eq_self.mpr hkeep
      simp [List.filter_cons, this]
    · have hy : slotOf (key y) ≠ slotOf (key e) := (List.pairwise_cons.mp hp).1 e h
      have hpred : (!(slotOf (key y) == slotOf (key e))) = true := by
        simpa using hy
      have ihp := ih (List.pairwise_cons.mp hp).2 h
      have hfc : (y :: ys).filter (fun x => !(slotOf (key x) == slotOf (key e))) =
          y :: ys.filter (fun x => !(slotOf (key x) == slotOf (key e))) := by
        simp [List.filter_cons, hpred]
      rw [hfc]
      exact (List.Perm.cons y ihp).trans (List.Perm.swap e y _)

theorem contains_find? {b : SentBuffer} {s : Nat} (h : b.contains s = true) :
    ∃ e, b.entries.find? (fun x => slotOf x.seqNum == slotOf s) = some e ∧
         e.seqNum = s ∧ e ∈ b.entries := by
  unfold SentBuffer.contains at h
  cases hf : b.entries.find? (fun x => slotOf x.seqNum == slotOf s) with
  | none => rw [hf] at h; cases h
  | some e =>
    rw [hf] at h
    exact ⟨e, rfl, by simpa using h, List.mem_of_find?_eq_some hf⟩

theorem release_measure {b : SentBuffer} {s : Nat} {e : SentEntry}
    (hf : b.entries.find? (fun x => slotOf x.seqNum == slotOf s) = some e) :
    sentMeasure (b.release s).2 + (e.resendLimit + 1) = sentMeasure b := by
  have he : e ∈ b.entries := List.mem_of_find?_eq_some hf
  have hslot2 : slotOf e.seqNum = slotOf s := by
    have := List.find?_some hf
    simpa using this
  have hperm := filter_slot_perm SentEntry.seqNum b.inv.1 he
  rw [hslot2] at hperm
  have hsum : (b.entries.map (fun x => x.resendLimit + 1)).sum =
      ((e :: b.entries.filter (fun x => !(slotOf x.seqNum == slotOf s))).map
        (fun x => x.resendLimit + 1)).sum :=
    (hperm.map _).sum_eq
  unfold sentMeasure SentBuffer.release
  simp only [List.map_cons, List.sum_cons] at hsum ⊢
  omega

theorem sum_map_filter_le {α : Type} (l : List α) (p : α → Bool) (f : α → Nat) :
    ((l.filter p).map f).sum ≤ (l.map f).sum := by
  induction l with
  | nil => simp
  | cons x xs ih =>
    by_cases h : p x = true
    · simp [List.filter_cons, h]
      omega
    · simp only [List.filter_cons, h, Bool.false_eq_true, if_false, List.map_cons,
        List.sum_cons]
      omega

theorem store_measure (b : SentBuffer) (p : Packet) (limit aL aB : Nat) (now : Int) :
    sentMeasure (b.store p limit aL aB now).2.1 ≤ sentMeasure b + (limit + 1) := by
  unfold sentMeasure SentBuffer.store
  simp only [List.map_cons, List.sum_cons]
  have := sum_map_filter_le b.entries
    (fun e => !(slotOf e.seqNum == slotOf (b.nextSeqNum % 65536))) (fun e => e.resendLimit + 1)
  omega

theorem removeUndelivered_measure {c : Conn} {s : Nat} (now : Int)
    (h : c.sentPackets.contains s = true) :
    sentMeasure (removeUndeliveredPacket c s now).1.sentPackets + 1 ≤
      sentMeasure c.sentPackets := by
  obtain ⟨e, hf, hseq, hmem⟩ := contains_find? h
  have hrel := release_measure (b := c.sentPackets) (s := s) hf
  have hfind1 : (c.sentPackets.release s).1 = some e := hf
  by_cases hb : 0 < e.resendLimit
  · have heq : removeUndeliveredPacket c s now =
        doSend { c with sentPackets := (c.sentPackets.release s).2 }
          e.packet (e.resendLimit - 1) now := by
      simp [removeUndeliveredPacket, h, hfind1, hb]
    rw [heq]
    have hst := store_measure (c.sentPackets.release s).2 e.packet (e.resendLimit - 1)
      c.ack.latest c.ack.bits now
    simp only [doSend]
    omega
  · have heq : removeUndeliveredPacket c s now =
        ({ c with sentPackets := (c.sentPackets.release s).2 }, []) := by
      simp [removeUndeliveredPacket, h, hfind1, hb]
    rw [heq]
    simp only []
    omega

theorem removeUndelivered_next {c : Conn} {s : Nat} (now : Int) :
    (removeUndeliveredPacket c s now).1.sentPackets.nextSeqNum =
        c.sentPackets.nextSeqNum ∨
    (removeUndeliveredPacket c s now).1.sentPackets.nextSeqNum =
        (c.sentPackets.nextSeqNum + 1) % 65536 := by
  by_cases h : c.sentPackets.contains s = true
  · cases hf : (c.sentPackets.release s).1 with
    | none =>
      have heq : removeUndeliveredPacket c s now =
          ({ c with sentPackets := (c.sentPackets.release s).2 }, []) := by
        simp [removeUndeliveredPacket, h, hf]
      rw [heq]
      exact Or.inl rfl
    | some e =>
      by_cases hb : 0 < e.resendLimit
      · have heq : removeUndeliveredPacket c s now =
            doSend { c with sentPackets := (c.sentPackets.release s).2 }
              e.packet (e.resendLimit - 1) now := by
          simp [removeUndeliveredPacket, h, hf, hb]
        rw [heq]
        exact Or.inr rfl
      · have heq : removeUndeliveredPacket c s now =
            ({ c with sentPackets := (c.sentPackets.release s).2 }, []) := by
          simp [removeUndeliveredPacket, h, hf, hb]
        rw [heq]
        exact Or.inl rfl
  · have heq : removeUndeliveredPacket c s now = (c, []) := by
      simp [removeUndeliveredPacket, h]
    rw [heq]
    exact Or.inl rfl

theorem ackedSeqNums_covered (f : AckField) (s : Nat) :
    s ∈ f.ackedSeqNums ↔
      s = f.latest ∨ ∃ k, 1 ≤ k ∧ k ≤ 32 ∧ f.bits.testBit (k - 1) = true ∧
        s = sub16 f.latest k := by
  simp only [AckField.ackedSeqNums, List.mem_cons, List.mem_filterMap, List.mem_range]
  constructor
  · rintro (h | ⟨i, hi, hif⟩)
    · exact Or.inl h
    · right
      by_cases hb : f.bits.testBit i = true
      · rw [if_pos hb] at hif
        refine ⟨i + 1, by omega, by omega, by simpa using hb, ?_⟩
        exact (Option.some.inj hif).symm
      · rw [if_neg hb] at hif
        cases hif
  · rintro (h | ⟨k, h1, h2, h3, h4⟩)
    · exact Or.inl h
    · right
      refine ⟨k - 1, by omega, ?_⟩
      rw [if_pos h3]
      have hk : k - 1 + 1 = k := by omega
      rw [hk, h4]

theorem rttFold_mem {lo hi : Nat} (hwrap : 10 * hi < 18446744073709551616)
    (obs : List Nat) (hobs : ∀ r ∈ obs, lo ≤ r ∧ r ≤ hi)
    (a : Nat) (ha : lo ≤ a ∧ a ≤ hi) :
    lo ≤ obs.foldl rttUpdate a ∧ obs.foldl rttUpdate a ≤ hi := by
  induction obs generalizing a with
  | nil => simpa using ha
  | cons r rs ih =>
    have hr := hobs r (List.mem_cons_self r rs)
    have hstep : lo ≤ rttUpdate a r ∧ rttUpdate a r ≤ hi := by
      have hnow : 9 * a + r < 18446744073709551616 := by omega
      unfold rttUpdate
      rw [Nat.mod_eq_of_lt hnow]
      omega
    exact ih (fun x hx => hobs x (List.mem_cons_of_mem r hx)) (rttUpdate a r) hstep

theorem moreRecent_win {n a b : Nat} (ha : sub16 n a < 32768) (hb : sub16 n b < 32768) :
    moreRecentSeqNum a b = true ↔ sub16 n a < sub16 n b := by
  rw [moreRecent_iff]
  unfold sub16 at *
  omega

theorem selOldest_max {α : Type} (key : α → Nat) (n : Nat) (e : α) (l : List α)
    (hw : ∀ x ∈ e :: l, sub16 n (key x) < 32768) :
    ∀ x ∈ e :: l, sub16 n (key x) ≤ sub16 n (key (selOldest key e l)) := by
  induction l generalizing e with
  | nil =>
    intro x hx
    rcases List.mem_cons.mp hx with h | h
    · subst h
      simp [selOldest]
    · cases h
  | cons y ys ih =>
    have hwe := hw e (List.mem_cons_self e (y :: ys))
    have hwy := hw y (List.mem_cons.mpr (Or.inr (List.mem_cons_self y ys)))
    by_cases h : moreRecentSeqNum (key e) (key y) = true
    · have hstep : selOldest key e (y :: ys) = selOldest key y ys := by
        simp only [selOldest, List.foldl_cons, if_pos h]
      have hwy2 : ∀ z ∈ y :: ys, sub16 n (key z) < 32768 := by
        intro z hz
        rcases List.mem_cons.mp hz with h2 | h2
        · subst h2; exact hwy
        · exact hw z (List.mem_cons.mpr (Or.inr (List.mem_cons.mpr (Or.inr h2))))
      have ihy := ih y hwy2
      intro x hx
      rw [hstep]
      rcases List.mem_cons.mp hx with h2 | h2
      · subst h2
        have hde : sub16 n (key x) < sub16 n (key y) := (moreRecent_win hwe hwy).mp h
        exact le_trans (le_of_lt hde) (ihy y (List.mem_cons_self y ys))
      · exact ihy x h2
    · have hstep : selOldest key e (y :: ys) = selOldest key e ys := by
        simp only [selOldest, List.foldl_cons, if_neg h]
      have hwe2 : ∀ z ∈ e :: ys, sub16 n (key z) < 32768 := by
        intro z hz
        rcases List.mem_cons.mp hz with h2 | h2
        · subst h2; exact hwe
        · exact hw z (List.mem_cons.mpr (Or.inr (List.mem_cons.mpr (Or.inr h2))))
      have ihe := ih e hwe2
      intro x hx
      rw [hstep]
      rcases List.mem_cons.mp hx with h2 | h2
      · subst h2
        exact ihe x (List.mem_cons_self x ys)
      · rcases List.mem_cons.mp h2 with h3 | h3
        · subst h3
          have hdy : ¬ sub16 n (key e) < sub16 n (key x) := fun hlt =>
            h ((moreRecent_win hwe hwy).mpr hlt)
          exact le_trans (by omega) (ihe e (List.mem_cons_self e ys))
        · exact ihe x (List.mem_cons.mpr (Or.inr h3))

theorem dispatchLoop_perm (fuel : Nat) (b : RecvBuffer)
    (hf : b.entries.length ≤ fuel) :
    (dispatchLoopFuel fuel b).Perm b.entries := by
  induction fuel generalizing b with
  | zero =>
    have hnil : b.entries = [] := List.length_eq_zero.mp (by omega)
    simp [dispatchLoopFuel, hnil]
  | succ fuel ih =>
    obtain ⟨bent, binv⟩ := b
    cases bent with
    | nil => simp [dispatchLoopFuel, RecvBuffer.removeLast]
    | cons e rest =>
      have hmem : selOldest Prod.fst e rest ∈ e :: rest := selOldest_mem Prod.fst e rest
      have hperm0 := filter_slot_perm Prod.fst binv.1 hmem
      have hlen : ((e :: rest).filter
          (fun x => !(slotOf x.1 == slotOf (selOldest Prod.fst e rest).1))).length ≤ fuel := by
        have h2 := hperm0.length_eq
        simp only [List.length_cons] at hf h2
        omega
      have ihp := ih (RecvBuffer.removeLast ⟨e :: rest, binv⟩).2 hlen
      have hent : (RecvBuffer.removeLast ⟨e :: rest, binv⟩).2.entries =
          (e :: rest).filter
            (fun x => !(slotOf x.1 == slotOf (selOldest Prod.fst e rest).1)) := rfl
      rw [hent] at ihp
      have hstep : dispatchLoopFuel (fuel + 1) (⟨e :: rest, binv⟩ : RecvBuffer) =
          selOldest Prod.fst e rest ::
            dispatchLoopFuel fuel (RecvBuffer.removeLast ⟨e :: rest, binv⟩).2 := rfl
      rw [hstep]
      exact (List.Perm.cons _ ihp).trans hperm0.symm

theorem dispatchLoop_sorted (fuel : Nat) (b : RecvBuffer) (n : Nat)
    (hf : b.entries.length ≤ fuel)
    (hw : ∀ x ∈ b.entries, sub16 n x.1 < 32768) :
    List.Pairwise (fun x y => moreRecentSeqNum y.1 x.1 = true)
      (dispatchLoopFuel fuel b) := by
  induction fuel generalizing b with
  | zero => simp [dispatchLoopFuel]
  | succ fuel ih =>
    obtain ⟨bent, binv⟩ := b
    cases bent with
    | nil => simp [dispatchLoopFuel, RecvBuffer.removeLast]
    | cons e rest =>
      have hmem : selOldest Prod.fst e rest ∈ e :: rest := selOldest_mem Prod.fst e rest
      have hm16 : (selOldest Prod.fst e rest).1 < 65536 := binv.2 _ hmem
      have hperm0 := filter_slot_perm Prod.fst binv.1 hmem
      have hlen : ((e :: rest).filter
          (fun x => !(slotOf x.1 == slotOf (selOldest Prod.fst e rest).1))).length ≤ fuel := by
        have h2 := hperm0.length_eq
        simp only [List.length_cons] at hf h2
        omega
      have hwsub : ∀ x ∈ (e :: rest).filter
          (fun x => !(slotOf x.1 == slotOf (selOldest Prod.fst e rest).1)),
          sub16 n x.1 < 32768 := fun x hx => hw x (List.mem_filter.mp hx).1
      have hent : (RecvBuffer.removeLast ⟨e :: rest, binv⟩).2.entries =
          (e :: rest).filter
            (fun x => !(slotOf x.1 == slotOf (selOldest Prod.fst e rest).1)) := rfl
      have htail := ih (RecvBuffer.removeLast ⟨e :: rest, binv⟩).2 (by rw [hent]; exact hlen)
        (by rw [hent]; exact hwsub)
      have hstep : dispatchLoopFuel (fuel + 1) (⟨e :: rest, binv⟩ : RecvBuffer) =
          selOldest Prod.fst e rest ::
            dispatchLoopFuel fuel (RecvBuffer.removeLast ⟨e :: rest, binv⟩).2 := rfl
      rw [hstep]
      refine List.pairwise_cons.mpr ⟨?_, htail⟩
      intro y hy
      have hperm := dispatchLoop_perm fuel (RecvBuffer.removeLast ⟨e :: rest, binv⟩).2
        (by rw [hent]; exact hlen)
      have hyfil : y ∈ (e :: rest).filter
          (fun x => !(slotOf x.1 == slotOf (selOldest Prod.fst e rest).1)) := by
        rw [← hent]
        exact hperm.mem_iff.mp hy
      have hyment : y ∈ e :: rest := (List.mem_filter.mp hyfil).1
      have hkey : y.1 ≠ (selOldest Prod.fst e rest).1 := by
        have hslot := (List.mem_filter.mp hyfil).2
        simp only [Bool.not_eq_true', beq_eq_false_iff_ne, ne_eq] at hslot
        exact fun h2 => hslot (by rw [h2])
      have hdy : sub16 n y.1 ≤ sub16 n (selOldest Prod.fst e rest).1 :=
        selOldest_max Prod.fst n e rest hw y hyment
      have hy16 : y.1 < 65536 := binv.2 y hyment
      have hstrict : sub16 n y.1 < sub16 n (selOldest Prod.fst e rest).1 := by
        rcases Nat.lt_or_ge (sub16 n y.1) (sub16 n (selOldest Prod.fst e rest).1) with h2 | h2
        · exact h2
        · exfalso
          apply hkey
          have heq : sub16 n y.1 = sub16 n (selOldest Prod.fst e rest).1 :=
            le_antisymm hdy h2
          unfold sub16 at heq
          omega
      exact (moreRecent_win (hw y hyment) (hw _ hmem)).mpr hstrict

theorem sub16_triangle (a b c : Nat) : sub16 a c ≤ sub16 a b + sub16 b c := by
  unfold sub16
  omega

theorem contains_oldest (b : SentBuffer) (hne : b.entries ≠ []) :
    b.contains b.oldestSeqNum = true := by
  obtain ⟨bent, bnext, binv⟩ := b
  cases bent with
  | nil => exact absurd rfl hne
  | cons e rest =>
    have hmem : selOldest SentEntry.seqNum e rest ∈ e :: rest :=
      selOldest_mem SentEntry.seqNum e rest
    have hfind := find?_key_eq SentEntry.seqNum binv.1 hmem
    show SentBuffer.contains ⟨e :: rest, bnext, binv⟩
      (selOldest SentEntry.seqNum e rest).seqNum = true
    unfold SentBuffer.contains
    rw [hfind]
    simp

theorem release_inWindow {b : SentBuffer} (hW : InWindow b) (s : Nat) :
    InWindow (b.release s).2 := by
  intro e he
  exact hW e (List.mem_filter.mp he).1

theorem release_measure_le (b : SentBuffer) (s : Nat) :
    sentMeasure (b.release s).2 ≤ sentMeasure b := by
  unfold sentMeasure SentBuffer.release
  exact sum_map_filter_le b.entries _ _

theorem store_inWindow {b : SentBuffer} (hW : InWindow b) (p : Packet)
    (limit aL aB : Nat) (now : Int) :
    InWindow (b.store p limit aL aB now).2.1 := by
  have hn : b.nextSeqNum < 65536 := b.inv.2.2
  intro e he
  simp only [SentBuffer.store] at he
  show 1 ≤ sub16 ((b.nextSeqNum + 1) % 65536) e.seqNum ∧
       sub16 ((b.nextSeqNum + 1) % 65536) e.seqNum ≤ 256
  rcases List.mem_cons.mp he with h | h
  · subst h
    show 1 ≤ sub16 ((b.nextSeqNum + 1) % 65536) (b.nextSeqNum % 65536) ∧
         sub16 ((b.nextSeqNum + 1) % 65536) (b.nextSeqNum % 65536) ≤ 256
    unfold sub16
    omega
  · have hm := List.mem_filter.mp h
    have hold := hW e hm.1
    have hslot : slotOf e.seqNum ≠ slotOf (b.nextSeqNum % 65536) := by
      have := hm.2
      simpa using this
    have h16 : e.seqNum < 65536 := b.inv.2.1 e hm.1
    unfold slotOf at hslot
    unfold sub16 at hold ⊢
    omega

theorem confirm_inv (c : Conn) (hW : InWindow c.sentPackets) (s : Nat) (now : Int) :
    InWindow (confirmPacketDelivery c s now).sentPackets ∧
    (confirmPacketDelivery c s now).sentPackets.nextSeqNum =
      c.sentPackets.nextSeqNum ∧
    sentMeasure (confirmPacketDelivery c s now).sentPackets ≤
      sentMeasure c.sentPackets := by
  by_cases h : c.sentPackets.contains s = true
  · cases hf : (c.sentPackets.release s).1 with
    | none =>
      have heq : confirmPacketDelivery c s now =
          { c with sentPackets := (c.sentPackets.release s).2 } := by
        simp [confirmPacketDelivery, h, hf]
      rw [heq]
      exact ⟨release_inWindow hW s, rfl, release_measure_le _ s⟩
    | some e =>
      have heq : confirmPacketDelivery c s now =
          { c with sentPackets := (c.sentPackets.release s).2,
                   averageRTT := rttUpdate c.averageRTT
                     (((now - e.timestamp) % (18446744073709551616 : Int)).toNat),
                   ackdCount := c.ackdCount + 1 } := by
        simp [confirmPacketDelivery, h, hf]
      rw [heq]
      exact ⟨release_inWindow hW s, rfl, release_measure_le _ s⟩
  · have heq : confirmPacketDelivery c s now = c := by
      simp [confirmPacketDelivery, h]
    rw [heq]
    exact ⟨hW, rfl, le_rfl⟩

theorem confirmFold_inv (c : Conn) (hW : InWindow c.sentPackets)
    (acks : List Nat) (now : Int) :
    InWindow (acks.foldl (fun st s => confirmPacketDelivery st s now) c).sentPackets ∧
    (acks.foldl (fun st s => confirmPacketDelivery st s now) c).sentPackets.nextSeqNum =
      c.sentPackets.nextSeqNum ∧
    sentMeasure
        (acks.foldl (fun st s => confirmPacketDelivery st s now) c).sentPackets ≤
      sentMeasure c.sentPackets := by
  induction acks generalizing c with
  | nil => exact ⟨hW, rfl, le_rfl⟩
  | cons a as ih =>
    have hstep := confirm_inv c hW a now
    have ih2 := ih (confirmPacketDelivery c a now) hstep.1
    simp only [List.foldl_cons]
    exact ⟨ih2.1, by rw [ih2.2.1, hstep.2.1], le_trans ih2.2.2 hstep.2.2⟩

theorem removeUndelivered_inWindow {c : Conn} (hW : InWindow c.sentPackets)
    (s : Nat) (now : Int) :
    InWindow (removeUndeliveredPacket c s now).1.sentPackets := by
  by_cases h : c.sentPackets.contains s = true
  · cases hf : (c.sentPackets.release s).1 with
    | none =>
      have heq : removeUndeliveredPacket c s now =
          ({ c with sentPackets := (c.sentPackets.release s).2 }, []) := by
        simp [removeUndeliveredPacket, h, hf]
      rw [heq]
      exact release_inWindow hW s
    | some e =>
      by_cases hb : 0 < e.resendLimit
      · have heq : removeUndeliveredPacket c s now =
            doSend { c with sentPackets := (c.sentPackets.release s).2 }
              e.packet (e.resendLimit - 1) now := by
          simp [removeUndeliveredPacket, h, hf, hb]
        rw [heq]
        exact store_inWindow (release_inWindow hW s) e.packet (e.resendLimit - 1)
          c.ack.latest c.ack.bits now
      · have heq : removeUndeliveredPacket c s now =
            ({ c with sentPackets := (c.sentPackets.release s).2 }, []) := by
          simp [removeUndeliveredPacket, h, hf, hb]
        rw [heq]
        exact release_inWindow hW s
  · have heq : removeUndeliveredPacket c s now = (c, []) := by
      simp [removeUndeliveredPacket, h]
    rw [heq]
    exact hW

theorem lossLoop_main (fuel : Nat) (c : Conn) (mS : Nat) (mT now : Int)
    (hW : InWindow c.sentPackets) (hfuel : sentMeasure c.sentPackets < fuel) :
    InWindow (lossLoopFuel fuel c mS mT now).1.sentPackets ∧
    sub16 (lossLoopFuel fuel c mS mT now).1.sentPackets.nextSeqNum
        c.sentPackets.nextSeqNum +
      sentMeasure (lossLoopFuel fuel c mS mT now).1.sentPackets ≤
      sentMeasure c.sentPackets ∧
    ((lossLoopFuel fuel c mS mT now).1.sentPackets.entries = [] ∨
     (moreRecentSeqNum mS (lossLoopFuel fuel c mS mT now).1.sentPackets.oldestSeqNum
        = false ∧
      ¬ mT > (lossLoopFuel fuel c mS mT now).1.sentPackets.oldestTime)) := by
  induction fuel generalizing c with
  | zero => omega
  | succ fuel ih =>
    by_cases hemp : c.sentPackets.empty = true
    · have heq : lossLoopFuel (fuel + 1) c mS mT now = (c, []) := by
        simp [lossLoopFuel, hemp]
      rw [heq]
      refine ⟨hW, ?_, Or.inl (List.isEmpty_iff.mp hemp)⟩
      show sub16 c.sentPackets.nextSeqNum c.sentPackets.nextSeqNum +
        sentMeasure c.sentPackets ≤ sentMeasure c.sentPackets
      have hz : sub16 c.sentPackets.nextSeqNum c.sentPackets.nextSeqNum = 0 := by
        unfold sub16
        omega
      omega
    · by_cases hcond : moreRecentSeqNum mS c.sentPackets.oldestSeqNum = true ∨
          mT > c.sentPackets.oldestTime
      · have heq1 : (lossLoopFuel (fuel + 1) c mS mT now).1 =
            (lossLoopFuel fuel
              (removeUndeliveredPacket c c.sentPackets.oldestSeqNum now).1
              mS mT now).1 := by
          simp [lossLoopFuel, hemp, hcond]
        rw [heq1]
        have hne : c.sentPackets.entries ≠ [] := by
          intro h0
          exact hemp (by simp [SentBuffer.empty, h0])
        have hcont := contains_oldest c.sentPackets hne
        have hdec := removeUndelivered_measure now hcont
        have hW1 := removeUndelivered_inWindow hW c.sentPackets.oldestSeqNum now
        have ih1 := ih (removeUndeliveredPacket c c.sentPackets.oldestSeqNum now).1
          hW1 (by omega)
        refine ⟨ih1.1, ?_, ih1.2.2⟩
        have hnext := removeUndelivered_next (c := c)
          (s := c.sentPackets.oldestSeqNum) now
        have hn : c.sentPackets.nextSeqNum < 65536 := c.sentPackets.inv.2.2
        have hone : sub16
            (removeUndeliveredPacket c c.sentPackets.oldestSeqNum now).1.sentPackets.nextSeqNum
            c.sentPackets.nextSeqNum ≤ 1 := by
          rcases hnext with h2 | h2
          · rw [h2]
            unfold sub16
            omega
          · rw [h2]
            unfold sub16
            omega
        have htri := sub16_triangle
          (lossLoopFuel fuel
            (removeUndeliveredPacket c c.sentPackets.oldestSeqNum now).1
            mS mT now).1.sentPackets.nextSeqNum
          (removeUndeliveredPacket c c.sentPackets.oldestSeqNum now).1.sentPackets.nextSeqNum
          c.sentPackets.nextSeqNum
        have hG := ih1.2.1
        omega
      · have heq : lossLoopFuel (fuel + 1) c mS mT now = (c, []) := by
          simp only [lossLoopFuel]
          rw [if_neg (by simpa using hemp), if_neg hcond]
        rw [heq]
        simp only [not_or, Bool.not_eq_true] at hcond
        refine ⟨hW, ?_, Or.inr ⟨hcond.1, hcond.2⟩⟩
        show sub16 c.sentPackets.nextSeqNum c.sentPackets.nextSeqNum +
          sentMeasure c.sentPackets ≤ sentMeasure c.sentPackets
        have hz : sub16 c.sentPackets.nextSeqNum c.sentPackets.nextSeqNum = 0 := by
          unfold sub16
          omega
        omega

theorem lossLoop_post (fuel : Nat) (c : Conn) (mS : Nat) (mT now : Int)
    (hfuel : sentMeasure c.sentPackets < fuel) :
    (lossLoopFuel fuel c mS mT now).1.sentPackets.entries = [] ∨
    (moreRecentSeqNum mS (lossLoopFuel fuel c mS mT now).1.sentPackets.oldestSeqNum
       = false ∧
     ¬ mT > (lossLoopFuel fuel c mS mT now).1.sentPackets.oldestTime) := by
  induction fuel generalizing c with
  | zero => omega
  | succ fuel ih =>
    by_cases hemp : c.sentPackets.empty = true
    · have heq : lossLoopFuel (fuel + 1) c mS mT now = (c, []) := by
        simp [lossLoopFuel, hemp]
      rw [heq]
      exact Or.inl (List.isEmpty_iff.mp hemp)
    · by_cases hcond : moreRecentSeqNum mS c.sentPackets.oldestSeqNum = true ∨
          mT > c.sentPackets.oldestTime
      · have heq1 : (lossLoopFuel (fuel + 1) c mS mT now).1 =
            (lossLoopFuel fuel
              (removeUndeliveredPacket c c.sentPackets.oldestSeqNum now).1
              mS mT now).1 := by
          simp [lossLoopFuel, hemp, hcond]
        rw [heq1]
        have hne : c.sentPackets.entries ≠ [] := by
          intro h0
          exact hemp (by simp [SentBuffer.empty, h0])
        have hcont := contains_oldest c.sentPackets hne
        have hdec := removeUndelivered_measure now hcont
        exact ih (removeUndeliveredPacket c c.sentPackets.oldestSeqNum now).1 (by omega)
      · have heq : lossLoopFuel (fuel + 1) c mS mT now = (c, []) := by
          simp only [lossLoopFuel]
          rw [if_neg (by simpa using hemp), if_neg hcond]
        rw [heq]
        simp only [not_or, Bool.not_eq_true] at hcond
        exact Or.inr ⟨hcond.1, hcond.2⟩

theorem window_not_stale {n L x : Nat} (hd1 : 1 ≤ sub16 n x) (hd2 : sub16 n x ≤ 256)
    (ha : sub16 n L + 256 ≤ 32768) :
    moreRecentSeqNum (sub16 L 256) x = false := by
  cases hb : moreRecentSeqNum (sub16 L 256) x with
  | false => rfl
  | true =>
    exfalso
    have h2 := (moreRecent_iff (sub16 L 256) x).mp hb
    unfold sub16 at *
    omega

/-! ### Claim theorems -/

/-- C6: AckField.updateForSeqNum is idempotent: for every AckField state and
every seqnum s, applying updateForSeqNum s twice yields the same field as
applying it once. -/
theorem C6_updateForSeqNum_idem (f : AckField) (s : Nat) :
    (f.updateForSeqNum s).updateForSeqNum s = f.updateForSeqNum s := by
  unfold AckField.updateForSeqNum
  by_cases h1 : moreRecentSeqNum s f.latest = true
  · rw [if_pos h1]
    have h2 : moreRecentSeqNum s (s % 65536) = false := by
      have : sub16 s (s % 65536) = 0 := by
        unfold sub16
        omega
      simp [moreRecentSeqNum, this]
    have h3 : sub16 (s % 65536) s = 0 := by
      unfold sub16
      omega
    simp only [h2, Bool.false_eq_true, if_false, h3]
    norm_num
  · rw [if_neg h1]
    by_cases h2 : sub16 f.latest s ≤ 32 ∧ 1 ≤ sub16 f.latest s
    · rw [if_pos h2]
      simp only [h1, Bool.false_eq_true, if_false]
      rw [if_pos h2]
      have : (f.bits ||| 2 ^ (sub16 f.latest s - 1)) ||| 2 ^ (sub16 f.latest s - 1) =
          f.bits ||| 2 ^ (sub16 f.latest s - 1) := by
        rw [Nat.or_assoc, Nat.or_self]
      rw [this]
    · rw [if_neg h2]
      rw [if_neg h1, if_neg h2]

/-- C9: for a seqnum s not held in the sent ring, removeUndeliveredPacket and
confirmPacketDelivery are no-ops: both release only under a contains guard,
and the whole connection state is unchanged when s is absent. -/
theorem C9_absent_noop (c : Conn) (s : Nat) (now : Int)
    (h : c.sentPackets.contains s = false) :
    confirmPacketDelivery c s now = c ∧ removeUndeliveredPacket c s now = (c, []) := by
  constructor
  · simp [confirmPacketDelivery, h]
  · simp [removeUndeliveredPacket, h]

/-- C9 witness: seqnum 5 is absent from the fresh connection's sent ring and
both operations leave it untouched. -/
theorem C9_witness :
    initConn.sentPackets.contains 5 = false ∧
    confirmPacketDelivery initConn 5 0 = initConn ∧
    removeUndeliveredPacket initConn 5 0 = (initConn, []) :=
  ⟨by decide, (C9_absent_noop initConn 5 0 (by decide)).1,
   (C9_absent_noop initConn 5 0 (by decide)).2⟩

/-- C10: handleSend with a zero error code changes nothing and emits nothing;
with a non-zero error code it notifies onError and removes the entry via
removeUndeliveredPacket. -/
theorem C10_handleSend_frame (c : Conn) (p : Packet) (now : Int) :
    handleSend c p 0 now = (c, []) ∧
    ∀ e : Nat, e ≠ 0 →
      handleSend c p e now =
        ((removeUndeliveredPacket c p.header.seqNum now).1,
         Eff.onError e :: (removeUndeliveredPacket c p.header.seqNum now).2) := by
  constructor
  · simp [handleSend]
  · intro e he
    simp [handleSend, he]

/-- C10 witness: on a fresh connection, an error-free completion for seqnum 7
leaves the state untouched, and an error code 1 produces exactly the onError
notification. -/
theorem C10_witness :
    handleSend initConn pC10 0 0 = (initConn, []) ∧
    handleSend initConn pC10 1 0 = (initConn, [Eff.onError 1]) := by
  constructor
  · exact (C10_handleSend_frame initConn pC10 0).1
  · rw [(C10_handleSend_frame initConn pC10 0).2 1 (by decide)]
    rfl

/-- C4 counterexample: the claim says asyncSend on a dead connection transmits
nothing and leaves the state unchanged; in fact the posted doSend runs
regardless of isDead, increments sentCount and submits the datagram. -/
theorem C4_counterexample :
    connC4.isDead = true ∧
    asyncSend pC4 0 = [Eff.postSend pC4 0] ∧
    (runPost connC4 (Eff.postSend pC4 0) 0).1.sentCount ≠ connC4.sentCount ∧
    (runPost connC4 (Eff.postSend pC4 0) 0).2 ≠ [] := by
  refine ⟨by decide, rfl, by decide, by decide⟩

/-- C4 amended: asyncSend posts doSend unconditionally; the isDead flag is
never consulted, so on a dead connection the executor still runs doSend,
which stores the packet, counts the send, submits the datagram to the
substrate, and leaves the connection dead. -/
theorem C4_asyncSend_ignores_dead (c : Conn) (p : Packet) (l : Nat) (now : Int)
    (hd : c.isDead = true) :
    asyncSend p l = [Eff.postSend p l] ∧
    runPost c (Eff.postSend p l) now = doSend c p l now ∧
    (doSend c p l now).1.sentCount = c.sentCount + 1 ∧
    (doSend c p l now).1.isDead = true ∧
    Eff.sendTo (c.sentPackets.store p l c.ack.latest c.ack.bits now).2.2 ∈
      (doSend c p l now).2 := by
  refine ⟨rfl, rfl, rfl, hd, ?_⟩
  simp [doSend]

/-- C4 witness: the amended statement on the concrete dead connection. -/
theorem C4_witness :
    connC4.isDead = true ∧
    (asyncSend pC4 0 = [Eff.postSend pC4 0] ∧
     runPost connC4 (Eff.postSend pC4 0) 0 = doSend connC4 pC4 0 0 ∧
     (doSend connC4 pC4 0 0).1.sentCount = connC4.sentCount + 1 ∧
     (doSend connC4 pC4 0 0).1.isDead = true ∧
     Eff.sendTo (connC4.sentPackets.store pC4 0 connC4.ack.latest connC4.ack.bits 0).2.2 ∈
       (doSend connC4 pC4 0 0).2) :=
  ⟨by decide,
   (C4_asyncSend_ignores_dead connC4 pC4 0 0 (by decide)).1,
   (C4_asyncSend_ignores_dead connC4 pC4 0 0 (by decide)).2.1,
   (C4_asyncSend_ignores_dead connC4 pC4 0 0 (by decide)).2.2.1,
   (C4_asyncSend_ignores_dead connC4 pC4 0 0 (by decide)).2.2.2.1,
   (C4_asyncSend_ignores_dead connC4 pC4 0 0 (by decide)).2.2.2.2⟩

/-- C7 counterexample: the claim says after any number of updates the average
lies in the observation range up to rounding; with the range 1000..1000 a
single update from the initial 50 gives 145, far outside the range. -/
theorem C7_counterexample :
    initConn.averageRTT = 50 ∧
    (∀ r ∈ [1000], 1000 ≤ r ∧ r ≤ 1000) ∧
    [1000].foldl rttUpdate initConn.averageRTT = 145 ∧
    ¬(999 ≤ [1000].foldl rttUpdate initConn.averageRTT) := by
  refine ⟨rfl, by decide, by decide, by decide⟩

/-- C7 amended: the EWMA step keeps the average inside any range containing
all observations, provided the range also contains the initial value 50 and
is small enough that the size_t arithmetic cannot wrap; hence after any
number of updates from initialisation the average stays in the range
exactly. -/
theorem C7_rtt_bounded (lo hi : Nat) (h1 : lo ≤ initConn.averageRTT)
    (h2 : initConn.averageRTT ≤ hi) (hwrap : 10 * hi < 18446744073709551616)
    (obs : List Nat) (hobs : ∀ r ∈ obs, lo ≤ r ∧ r ≤ hi) :
    lo ≤ obs.foldl rttUpdate initConn.averageRTT ∧
    obs.foldl rttUpdate initConn.averageRTT ≤ hi :=
  rttFold_mem hwrap obs hobs initConn.averageRTT ⟨h1, h2⟩

/-- C7 witness: observations 20 and 30 inside 10..100 keep the average inside
10..100. -/
theorem C7_witness :
    (10 ≤ initConn.averageRTT ∧ initConn.averageRTT ≤ 100) ∧
    (∀ r ∈ [20, 30], 10 ≤ r ∧ r ≤ 100) ∧
    (10 ≤ [20, 30].foldl rttUpdate initConn.averageRTT ∧
     [20, 30].foldl rttUpdate initConn.averageRTT ≤ 100) :=
  ⟨⟨by decide, by decide⟩, by decide,
   C7_rtt_bounded 10 100 (by decide) (by decide) (by decide) [20, 30] (by decide)⟩

/-- C8: an inbound datagram shorter than the 12-byte header or longer than
512 bytes is rejected with a BadPacketSize notification and no connection's
state changes; every length inside 12..512 is accepted by framing
validation. -/
theorem C8_size_validation :
    (∀ (reg : List (Nat × Conn)) (ep : Nat) (bytes : List Nat) (now : Int),
       bytes.length < 12 ∨ bytes.length > 512 →
       socketProcessDatagram reg ep bytes now =
         (reg, [SocketEvent.badPacketSize bytes.length], []) ∧
       decodePacket bytes = none) ∧
    (∀ bytes : List Nat, 12 ≤ bytes.length → bytes.length ≤ 512 →
       ∃ h payload, decodePacket bytes = some (h, payload)) := by
  constructor
  · intro reg ep bytes now hlen
    have hdec : decodePacket bytes = none := by
      unfold decodePacket
      rw [if_pos hlen]
    constructor
    · unfold socketProcessDatagram
      rw [hdec]
    · exact hdec
  · intro bytes hlo hhi
    have hdec : decodePacket bytes =
        some (⟨leVal (bytes.take 4), leVal ((bytes.drop 4).take 2),
               leVal ((bytes.drop 6).take 2), leVal ((bytes.drop 8).take 4)⟩,
              bytes.drop 12) := by
      unfold decodePacket
      rw [if_neg (by omega)]
    exact ⟨_, _, hdec⟩

/-- C8 witness: an 11-byte datagram is rejected without touching the (empty)
registry, and a 12-byte datagram is accepted by framing validation. -/
theorem C8_witness :
    (List.replicate 11 0).length < 12 ∧
    (socketProcessDatagram [] 0 (List.replicate 11 0) 0 =
      ([], [SocketEvent.badPacketSize (List.replicate 11 0).length], []) ∧
     decodePacket (List.replicate 11 0) = none) ∧
    (∃ h payload, decodePacket (List.replicate 12 0) = some (h, payload)) :=
  ⟨by decide,
   C8_size_validation.1 [] 0 (List.replicate 11 0) 0 (Or.inl (by decide)),
   C8_size_validation.2 (List.replicate 12 0) (by decide) (by decide)⟩

/-- C1 counterexample: with seqnums 0..4 in flight, the claim says the ack
(latest 4, bits 0b0101) leaves exactly seqnums 1 and 3; in fact bit 0 covers
seqnum 3 and bit 2 covers seqnum 1, so 1 is released and 0 remains. -/
theorem C1_counterexample :
    (processPeerAcks connC1 ⟨4, 5⟩ 1000).1.sentPackets.contains 1 = false ∧
    (processPeerAcks connC1 ⟨4, 5⟩ 1000).1.sentPackets.contains 0 = true := by
  refine ⟨by decide, by decide⟩

/-- C1 amended: the ack covers latest together with latest - k for every set
bit k - 1 (k in 1..32); hence with seqnums 0..4 in flight the ack (4, 0b0101)
covers 4, 3, 1 and leaves exactly seqnums 2 and 0 with ackdCount increased by
3, while the ack (4, 0b1010) covers 4, 2, 0 and leaves exactly 3 and 1 with
ackdCount increased by 3. -/
theorem C1_processPeerAcks_scenario :
    (∀ (f : AckField) (s : Nat),
       s ∈ f.ackedSeqNums ↔
         s = f.latest ∨ ∃ k, 1 ≤ k ∧ k ≤ 32 ∧ f.bits.testBit (k - 1) = true ∧
           s = sub16 f.latest k) ∧
    ((processPeerAcks connC1 ⟨4, 5⟩ 1000).1.sentPackets.entries.map SentEntry.seqNum
        = [2, 0] ∧
     (processPeerAcks connC1 ⟨4, 5⟩ 1000).1.ackdCount = connC1.ackdCount + 3) ∧
    ((processPeerAcks connC1 ⟨4, 10⟩ 1000).1.sentPackets.entries.map SentEntry.seqNum
        = [3, 1] ∧
     (processPeerAcks connC1 ⟨4, 10⟩ 1000).1.ackdCount = connC1.ackdCount + 3) :=
  ⟨ackedSeqNums_covered, ⟨by decide, by decide⟩, ⟨by decide, by decide⟩⟩

/-- C2 counterexample: the claim says a duplicated seqnum is delivered as the
first copy received; in fact the ring keeps the last copy, so after receiving
seqnum 7 twice with different payloads the drain delivers the second copy.
Furthermore seqnums 0, 20000, 40000 form a circular-greater cycle, so the
drain order 0, 20000, 40000 has a later delivery (40000) that is not
circular-greater than an earlier one (0). -/
theorem C2_counterexample :
    ((dispatchReceivedPackets
        (handleReceive (handleReceive initConn pC2a 0).1 pC2b 0).1).1 = [(7, pC2b)] ∧
     pC2b ≠ pC2a) ∧
    ((dispatchReceivedPackets connC2y).1 = [(0, qC2a), (20000, qC2b), (40000, qC2c)] ∧
     moreRecentSeqNum 40000 0 = false) := by
  refine ⟨⟨by decide, by decide⟩, ⟨by decide, by decide⟩⟩

/-- C5 counterexample: the claim says that after processPeerAcks no remaining
entry is circularly below peerAck - 256; with in-flight seqnums 65280 and
65290 (fresh timestamps) and a peer ack of 32770, the oldest entry 65280 is
not circularly below 32514 = 32770 - 256, so the loop stops at once, yet the
younger entry 65290 is circularly below 32514 and remains. -/
theorem C5_counterexample :
    (processPeerAcks connC5x ⟨32770, 0⟩ 1000000).1.sentPackets.contains 65290 = true ∧
    moreRecentSeqNum (sub16 32770 256) 65290 = true ∧
    (∀ e ∈ connC5x.sentPackets.entries, (1000000 : Int) - 2000 ≤ e.timestamp) := by
  refine ⟨by decide, by decide, by decide⟩

/-- C5 amended: when processPeerAcks returns, the sent buffer holds no entry
timestamped more than two seconds before now, unconditionally (the loop exits
only when the minimal timestamp is fresh); no entry circularly below
peerAck - 256 remains provided every in-flight seqnum lies in the 256-window
just below nextSeqNum (true of every reachable buffer) and the peer's latest
ack is circularly behind nextSeqNum by at most 2^15 - 256 minus the buffer's
pending resend weight; and every entry the loss loop removes is passed to
removeUndeliveredPacket with the oldest seqnum (each removing iteration is
exactly a removeUndeliveredPacket call). -/
theorem C5_loss_detection :
    (∀ (c : Conn) (peerAck : AckField) (now : Int),
       ∀ e ∈ (processPeerAcks c peerAck now).1.sentPackets.entries,
         now - 2000 ≤ e.timestamp) ∧
    (∀ (c : Conn) (peerAck : AckField) (now : Int),
       InWindow c.sentPackets →
       sub16 c.sentPackets.nextSeqNum peerAck.latest +
         sentMeasure c.sentPackets + 256 ≤ 32768 →
       ∀ e ∈ (processPeerAcks c peerAck now).1.sentPackets.entries,
         moreRecentSeqNum (sub16 peerAck.latest 256) e.seqNum = false) ∧
    (∀ (fuel : Nat) (c : Conn) (mS : Nat) (mT now : Int),
       c.sentPackets.empty = false →
       (moreRecentSeqNum mS c.sentPackets.oldestSeqNum = true ∨
        mT > c.sentPackets.oldestTime) →
       lossLoopFuel (fuel + 1) c mS mT now =
         ((lossLoopFuel fuel
             (removeUndeliveredPacket c c.sentPackets.oldestSeqNum now).1
             mS mT now).1,
          (removeUndeliveredPacket c c.sentPackets.oldestSeqNum now).2 ++
          (lossLoopFuel fuel
             (removeUndeliveredPacket c c.sentPackets.oldestSeqNum now).1
             mS mT now).2)) := by
  refine ⟨?_, ?_, ?_⟩
  · intro c peerAck now
    unfold processPeerAcks
    set c1 := peerAck.ackedSeqNums.foldl (fun st s => confirmPacketDelivery st s now) c
      with hc1def
    intro e he
    have hpost := lossLoop_post (sentMeasure c1.sentPackets + 1) c1
      (sub16 peerAck.latest 256) (now - 2000) now (by omega)
    rcases hpost with hempty | hexit
    · rw [hempty] at he
      cases he
    · have hle := oldestTime_le
        (lossLoopFuel (sentMeasure c1.sentPackets + 1) c1 (sub16 peerAck.latest 256)
          (now - 2000) now).1.sentPackets e he
      have hex2 := hexit.2
      omega
  · intro c peerAck now hW hA
    unfold processPeerAcks
    have hc1 := confirmFold_inv c hW peerAck.ackedSeqNums now
    set c1 := peerAck.ackedSeqNums.foldl (fun st s => confirmPacketDelivery st s now) c
      with hc1def
    have hmain := lossLoop_main (sentMeasure c1.sentPackets + 1) c1
      (sub16 peerAck.latest 256) (now - 2000) now hc1.1 (by omega)
    intro e he
    have hde := hmain.1 e he
    have htri2 := sub16_triangle
      (lossLoopFuel (sentMeasure c1.sentPackets + 1) c1 (sub16 peerAck.latest 256)
        (now - 2000) now).1.sentPackets.nextSeqNum
      c1.sentPackets.nextSeqNum peerAck.latest
    have ha1 : sub16 c1.sentPackets.nextSeqNum peerAck.latest =
        sub16 c.sentPackets.nextSeqNum peerAck.latest := by
      rw [hc1.2.1]
    have hG := hmain.2.1
    have hm1 := hc1.2.2
    exact window_not_stale hde.1 hde.2 (by omega)
  · intro fuel c mS mT now hemp hcond
    simp [lossLoopFuel, hemp, hcond]

/-- C5 witness: on a connection holding seqnums 3 (two and a half seconds
old, budget 1) and 4 (fresh, budget 1) with nextSeqNum 5, processing the ack
(latest 4, bits 0) leaves no entry older than two seconds and none circularly
below 4 - 256; and the loop iteration that evicts the stale oldest entry is a
removeUndeliveredPacket call on it. -/
theorem C5_witness :
    (∀ e ∈ (processPeerAcks connC5w ⟨4, 0⟩ 10000).1.sentPackets.entries,
       (10000 : Int) - 2000 ≤ e.timestamp) ∧
    (InWindow connC5w.sentPackets ∧
     sub16 connC5w.sentPackets.nextSeqNum (4 : Nat) +
       sentMeasure connC5w.sentPackets + 256 ≤ 32768 ∧
     (∀ e ∈ (processPeerAcks connC5w ⟨4, 0⟩ 10000).1.sentPackets.entries,
        moreRecentSeqNum (sub16 4 256) e.seqNum = false)) ∧
    (connC5w.sentPackets.empty = false ∧
     ((10050 : Int) > connC5w.sentPackets.oldestTime) ∧
     lossLoopFuel 1 connC5w 0 10050 10000 =
       ((lossLoopFuel 0
           (removeUndeliveredPacket connC5w connC5w.sentPackets.oldestSeqNum 10000).1
           0 10050 10000).1,
        (removeUndeliveredPacket connC5w connC5w.sentPackets.oldestSeqNum 10000).2 ++
        (lossLoopFuel 0
           (removeUndeliveredPacket connC5w connC5w.sentPackets.oldestSeqNum 10000).1
           0 10050 10000).2)) :=
  ⟨C5_loss_detection.1 connC5w ⟨4, 0⟩ 10000,
   ⟨by unfold InWindow; decide, by decide,
    C5_loss_detection.2.1 connC5w ⟨4, 0⟩ 10000 (by unfold InWindow; decide) (by decide)⟩,
   ⟨by decide, by decide,
    C5_loss_detection.2.2 0 connC5w 0 10050 10000 (by decide) (Or.inr (by decide))⟩⟩

/-- C2 amended: within one drain, dispatchReceivedPackets delivers each
buffered packet exactly once, for every connection (the delivered list is a
permutation of the ring occupants, with pairwise distinct seqnums); a seqnum
received in duplicate is delivered exactly once but as the most recently
received copy (insert keeps the new packet and returns the old one); and
whenever all buffered seqnums lie in one circular half-window, every
delivered seqnum is circular-greater than every seqnum delivered earlier in
the same drain. -/
theorem C2_dispatch_order :
    (∀ c : Conn,
       (dispatchReceivedPackets c).1.Perm c.recvPackets.entries ∧
       List.Pairwise (fun x y => x.1 ≠ y.1) (dispatchReceivedPackets c).1) ∧
    (∀ (c : Conn) (n : Nat),
       (∀ x ∈ c.recvPackets.entries, sub16 n x.1 < 32768) →
       List.Pairwise (fun x y => moreRecentSeqNum y.1 x.1 = true)
         (dispatchReceivedPackets c).1) ∧
    (∀ (b : RecvBuffer) (s : Nat) (p1 p2 : Packet),
       ((b.insert s p1).2.insert s p2).1 = some p1 ∧
       ((b.insert s p1).2.insert s p2).2.entries.head? = some (s % 65536, p2)) := by
  refine ⟨?_, ?_, ?_⟩
  · intro c
    have hperm := dispatchLoop_perm c.recvPackets.entries.length c.recvPackets le_rfl
    have hkeys : c.recvPackets.entries.Pairwise (fun a b => a.1 ≠ b.1) :=
      c.recvPackets.inv.1.imp (fun hslot heq => hslot (by rw [heq]))
    exact ⟨hperm, (hperm.pairwise_iff (fun hab => hab.symm)).mpr hkeys⟩
  · intro c n hw
    exact dispatchLoop_sorted c.recvPackets.entries.length c.recvPackets n le_rfl hw
  · intro b s p1 p2
    have hslot : (slotOf (s % 65536) == slotOf s) = true := by
      have : slotOf (s % 65536) = slotOf s := by
        unfold slotOf
        omega
      simp [this]
    constructor
    · simp [RecvBuffer.insert, List.find?_cons, hslot]
    · simp [RecvBuffer.insert]

/-- C2 witness: for the ring holding seqnums 5 and 300, the drain is a
permutation of the occupants with distinct seqnums, and, as they lie inside
the half-window below 301, in circular-increasing order; double insertion of
seqnum 7 returns the first copy while the ring keeps the second. -/
theorem C2_witness :
    ((dispatchReceivedPackets connC2w).1.Perm connC2w.recvPackets.entries ∧
     List.Pairwise (fun x y => x.1 ≠ y.1) (dispatchReceivedPackets connC2w).1) ∧
    (∀ x ∈ connC2w.recvPackets.entries, sub16 301 x.1 < 32768) ∧
    List.Pairwise (fun x y => moreRecentSeqNum y.1 x.1 = true)
      (dispatchReceivedPackets connC2w).1 ∧
    ((RecvBuffer.mkEmpty.insert 7 pC2a).2.insert 7 pC2b).1 = some pC2a ∧
    ((RecvBuffer.mkEmpty.insert 7 pC2a).2.insert 7 pC2b).2.entries.head? =
      some (7 % 65536, pC2b) :=
  ⟨C2_dispatch_order.1 connC2w, by decide,
   C2_dispatch_order.2.1 connC2w 301 (by decide),
   (C2_dispatch_order.2.2 RecvBuffer.mkEmpty 7 pC2a pC2b).1,
   (C2_dispatch_order.2.2 RecvBuffer.mkEmpty 7 pC2a pC2b).2⟩

/-- C3: every resend path is budget-guarded and decrements: a buffer-pressure
eviction in doSend re-posts the displaced packet only when its budget is
positive, with budget minus one; removeUndeliveredPacket (used both by loss
detection and by handleSend's failure path) resends only under a positive
budget, handing budget minus one to doSend; handleSend routes substrate
failures through removeUndeliveredPacket; and any chain of successive resends
of one packet starting from budget k has length at most k. -/
theorem C3_resend_budget :
    (∀ (c : Conn) (p : Packet) (l : Nat) (now : Int) (q : Packet) (m : Nat),
       Eff.postSend q m ∈ (doSend c p l now).2 →
       ∃ old, (c.sentPackets.store p l c.ack.latest c.ack.bits now).1 = some old ∧
              0 < old.resendLimit ∧ q = old.packet ∧ m = old.resendLimit - 1) ∧
    (∀ (c : Conn) (s : Nat) (now : Int),
       c.sentPackets.contains s = true →
       ∃ e, (c.sentPackets.release s).1 = some e ∧
         ((e.resendLimit = 0 ∧ removeUndeliveredPacket c s now =
             ({ c with sentPackets := (c.sentPackets.release s).2 }, [])) ∨
          (0 < e.resendLimit ∧ removeUndeliveredPacket c s now =
             doSend { c with sentPackets := (c.sentPackets.release s).2 }
               e.packet (e.resendLimit - 1) now))) ∧
    (∀ (c : Conn) (p : Packet) (er : Nat) (now : Int), er ≠ 0 →
       handleSend c p er now =
         ((removeUndeliveredPacket c p.header.seqNum now).1,
          Eff.onError er :: (removeUndeliveredPacket c p.header.seqNum now).2)) ∧
    (∀ (k : Nat) (l : List Nat), ResendChain k l → l.length ≤ k) := by
  refine ⟨?_, ?_, ?_, ?_⟩
  · intro c p l now q m hmem
    simp only [doSend, asyncSend] at hmem
    rw [List.mem_append] at hmem
    rcases hmem with hmem | hmem
    · cases hst : (c.sentPackets.store p l c.ack.latest c.ack.bits now).1 with
      | none =>
        simp only [hst] at hmem
        cases hmem
      | some old =>
        simp only [hst] at hmem
        by_cases hb : 0 < old.resendLimit
        · rw [if_pos hb] at hmem
          simp only [List.mem_singleton, Eff.postSend.injEq] at hmem
          exact ⟨old, rfl, hb, hmem.1, hmem.2⟩
        · rw [if_neg hb] at hmem
          cases hmem
    · simp at hmem
  · intro c s now h
    obtain ⟨e, hf, hseq, hmem⟩ := contains_find? h
    have hfind1 : (c.sentPackets.release s).1 = some e := hf
    refine ⟨e, hfind1, ?_⟩
    by_cases hb : 0 < e.resendLimit
    · exact Or.inr ⟨hb, by simp [removeUndeliveredPacket, h, hfind1, hb]⟩
    · exact Or.inl ⟨by omega, by simp [removeUndeliveredPacket, h, hfind1, hb]⟩
  · intro c p er now he
    simp [handleSend, he]
  · intro k l h
    induction h with
    | nil => simp
    | cons k rest hk hr ih =>
      simp only [List.length_cons]
      omega

/-- C3 witness: on a connection holding seqnum 0 with budget 2, the release
path resends exactly through doSend with budget 1; a resend chain from budget
2 has length at most 2. -/
theorem C3_witness :
    connC3w.sentPackets.contains 0 = true ∧
    (∃ e, (connC3w.sentPackets.release 0).1 = some e ∧
       ((e.resendLimit = 0 ∧ removeUndeliveredPacket connC3w 0 50 =
           ({ connC3w with sentPackets := (connC3w.sentPackets.release 0).2 }, [])) ∨
        (0 < e.resendLimit ∧ removeUndeliveredPacket connC3w 0 50 =
           doSend { connC3w with sentPackets := (connC3w.sentPackets.release 0).2 }
             e.packet (e.resendLimit - 1) 50))) ∧
    ResendChain 2 [1, 0] ∧ [1, 0].length ≤ 2 := by
  have hchain : ResendChain 2 [1, 0] :=
    ResendChain.cons 2 [0] (by omega)
      (ResendChain.cons 1 [] (by omega) (ResendChain.nil 0))
  exact ⟨by decide, C3_resend_budget.2.1 connC3w 0 50 (by decide), hchain,
         C3_resend_budget.2.2.2 2 [1, 0] hchain⟩

end Netbase
